import Mathlib

/-!
Verification development for the PyProBE battery-cycler normalization
pipeline.  The definitions below are a shallow embedding of the Python
source (polars column expressions become functions over Lean lists;
nullable columns become lists of `Option` values; numeric columns are
modelled over `ℚ`/`ℤ`, on which the algebra performed by the code is
exact).  Each section names the source function it embeds.
-/

set_option maxHeartbeats 1000000
set_option maxRecDepth 4000

/-! ### Generic polars column combinators -/

/-- polars `Expr.diff()` tail: pairwise difference where the previous value is
threaded through (`p` is the element one position back). -/
def diffAux {α : Type} [Sub α] (p : α) : List α → List (Option α)
  | [] => []
  | x :: xs => some (x - p) :: diffAux x xs

/-- polars `Expr.diff()`: `col - col.shift(1)`; the first element has no
predecessor and is null. -/
def diffCol {α : Type} [Sub α] : List α → List (Option α)
  | [] => []
  | x :: xs => none :: diffAux x xs

/-- polars `Expr.cum_sum()` tail with running accumulator. -/
def cumSumAux {α : Type} [Add α] (acc : α) : List α → List α
  | [] => []
  | x :: xs => (acc + x) :: cumSumAux (acc + x) xs

/-- polars `Expr.cum_sum()`: inclusive prefix sums. -/
def cumSum {α : Type} [Add α] [Zero α] (l : List α) : List α := cumSumAux 0 l

/-- polars `Expr.max()`: maximum of a column, null on an empty column. -/
def listMax {α : Type} [LinearOrder α] : List α → Option α
  | [] => none
  | x :: xs => some (xs.foldl max x)

/-! ### BaseCycler.capacity_from_ch_dch (src/pyprobe/cyclers/basecycler.py) -/

/-- polars `.clip(lower_bound=0).fill_null(strategy="zero")` applied to one
cell of a nullable column: nulls pass through `clip` and are then zeroed. -/
def clipFill (o : Option ℚ) : ℚ := (o.map (fun x => max x 0)).getD 0

/-- Embedding of `BaseCycler.capacity_from_ch_dch`:
`(charge.diff().clip(0).fill_null(0) - discharge.diff().clip(0).fill_null(0))
.cum_sum() + charge.max()`.  On an empty charge column polars broadcasts a
null scalar; the claims quantify over nonempty columns, where `getD 0` is
never reached. -/
def capacity_from_ch_dch (charge discharge : List ℚ) : List ℚ :=
  (cumSum (((diffCol charge).map clipFill).zipWith (fun a b => a - b)
    ((diffCol discharge).map clipFill))).map
    (fun x => x + (listMax charge).getD 0)

/-- Specification-side formula of claim C1:
`dch[i] = max(charge[i] - charge[i-1], 0)` for `i > 0` and `dch[0] = 0`. -/
def dchSpec (l : List ℚ) (i : ℕ) : ℚ :=
  if i = 0 then 0 else max (l.getD i 0 - l.getD (i - 1) 0) 0

/-! ### BaseCycler.cycle and BaseCycler.event (src/pyprobe/cyclers/basecycler.py) -/

/-- polars boolean column cast to integers for `cum_sum`. -/
def boolToInt (b : Bool) : ℤ := if b then 1 else 0

/-- Indicator column of `BaseCycler.cycle`:
`(step - step.shift() < 0).fill_null(strategy="zero")`, as integers. -/
def cycleInd (step : List ℤ) : List ℤ :=
  ((diffCol step).map
    (fun o => (o.map (fun x => decide (x < 0))).getD false)).map boolToInt

/-- Embedding of `BaseCycler.cycle`:
`(step - step.shift() < 0).fill_null(strategy="zero").cum_sum()`. -/
def cycle (step : List ℤ) : List ℤ := cumSum (cycleInd step)

/-- Indicator column of `BaseCycler.event`:
`(step - step.shift() != 0).fill_null(strategy="zero")`, as integers. -/
def eventInd (step : List ℤ) : List ℤ :=
  ((diffCol step).map
    (fun o => (o.map (fun x => decide (x ≠ 0))).getD false)).map boolToInt

/-- Embedding of `BaseCycler.event`:
`(step - step.shift() != 0).fill_null(strategy="zero").cum_sum()`. -/
def event (step : List ℤ) : List ℤ := cumSum (eventInd step)

/-! ### Lemmas about the column combinators -/

theorem diffAux_length {α : Type} [Sub α] (p : α) (l : List α) :
    (diffAux p l).length = l.length := by
  induction l generalizing p with
  | nil => rfl
  | cons x xs ih => simp [diffAux, ih]

theorem diffCol_length {α : Type} [Sub α] (l : List α) :
    (diffCol l).length = l.length := by
  cases l with
  | nil => rfl
  | cons x xs => simp [diffCol, diffAux_length]

theorem diffAux_getD {α : Type} [Sub α] (l : List α) (p d : α) (i : ℕ)
    (hi : i < l.length) :
    (diffAux p l).getD i none =
      some (l.getD i d - if i = 0 then p else l.getD (i - 1) d) := by
  induction l generalizing p i with
  | nil => simp at hi
  | cons x xs ih =>
    cases i with
    | zero => simp [diffAux]
    | succ j =>
      simp only [diffAux, List.getD_cons_succ]
      rw [ih x j (by simpa using hi)]
      cases j with
      | zero => simp
      | succ k => simp

theorem diffCol_getD_zero {α : Type} [Sub α] (l : List α) (hl : l ≠ []) :
    (diffCol l).getD 0 none = none := by
  cases l with
  | nil => simp at hl
  | cons x xs => rfl

theorem diffCol_getD_succ {α : Type} [Sub α] (l : List α) (d : α) (i : ℕ)
    (hi : i + 1 < l.length) :
    (diffCol l).getD (i + 1) none = some (l.getD (i + 1) d - l.getD i d) := by
  cases l with
  | nil => simp at hi
  | cons x xs =>
    simp only [diffCol, List.getD_cons_succ]
    rw [diffAux_getD xs x d i (by simpa using hi)]
    cases i with
    | zero => simp
    | succ k => simp

theorem cumSumAux_length {α : Type} [Add α] (acc : α) (l : List α) :
    (cumSumAux acc l).length = l.length := by
  induction l generalizing acc with
  | nil => rfl
  | cons x xs ih => simp [cumSumAux, ih]

theorem cumSum_length {α : Type} [Add α] [Zero α] (l : List α) :
    (cumSum l).length = l.length := cumSumAux_length 0 l

theorem cumSumAux_getD {α : Type} [AddCommMonoid α] (l : List α) (acc d : α)
    (i : ℕ) (hi : i < l.length) :
    (cumSumAux acc l).getD i d = acc + (l.take (i + 1)).sum := by
  induction l generalizing acc i with
  | nil => simp at hi
  | cons x xs ih =>
    cases i with
    | zero => simp [cumSumAux]
    | succ j =>
      simp only [cumSumAux, List.getD_cons_succ]
      rw [ih (acc + x) j (by simpa using hi)]
      simp [add_assoc]

theorem cumSum_getD {α : Type} [AddCommMonoid α] (l : List α) (d : α) (i : ℕ)
    (hi : i < l.length) :
    (cumSum l).getD i d = (l.take (i + 1)).sum := by
  rw [cumSum, cumSumAux_getD l 0 d i hi, zero_add]

theorem sum_take_eq_sum_range {α : Type} [AddCommMonoid α] (l : List α)
    (d : α) (n : ℕ) (hn : n ≤ l.length) :
    (l.take n).sum = ∑ j ∈ Finset.range n, l.getD j d := by
  induction l generalizing n with
  | nil =>
    have : n = 0 := by simpa using hn
    subst this
    simp
  | cons x xs ih =>
    cases n with
    | zero => simp
    | succ m =>
      rw [List.take_succ_cons, List.sum_cons, ih m (by simpa using hn),
        Finset.sum_range_succ']
      simp [add_comm]

theorem cumSum_getD_succ {α : Type} [AddCommMonoid α] (l : List α) (d : α)
    (i : ℕ) (hi : i + 1 < l.length) :
    (cumSum l).getD (i + 1) d = (cumSum l).getD i d + l.getD (i + 1) d := by
  rw [cumSum_getD l d (i + 1) hi, cumSum_getD l d i (by omega),
    sum_take_eq_sum_range l d (i + 2) (by omega),
    sum_take_eq_sum_range l d (i + 1) (by omega), Finset.sum_range_succ]

theorem cumSum_mono (l : List ℤ) (hpos : ∀ x ∈ l, 0 ≤ x) (i j : ℕ)
    (hij : i ≤ j) (hj : j < l.length) :
    (cumSum l).getD i 0 ≤ (cumSum l).getD j 0 := by
  induction j with
  | zero =>
    interval_cases i
    exact le_refl _
  | succ k ih =>
    rcases Nat.lt_or_ge i (k + 1) with h | h
    · have step : (cumSum l).getD k 0 ≤ (cumSum l).getD (k + 1) 0 := by
        rw [cumSum_getD_succ l 0 k hj]
        have hmem : l.getD (k + 1) 0 ∈ l := by
          rw [List.getD_eq_getElem l 0 hj]
          exact List.getElem_mem hj
        have := hpos _ hmem
        omega
      exact le_trans (ih (by omega) (by omega)) step
    · have : i = k + 1 := by omega
      subst this
      exact le_refl _

theorem zipWith_getD {α β γ : Type} (f : α → β → γ) (as : List α)
    (bs : List β) (da : α) (db : β) (dc : γ) (j : ℕ) (hja : j < as.length)
    (hjb : j < bs.length) :
    (as.zipWith f bs).getD j dc = f (as.getD j da) (bs.getD j db) := by
  induction as generalizing bs j with
  | nil => simp at hja
  | cons a as ih =>
    cases bs with
    | nil => simp at hjb
    | cons b bs =>
      cases j with
      | zero => rfl
      | succ k =>
        simp only [List.zipWith_cons_cons, List.getD_cons_succ]
        exact ih bs k (by simpa using hja) (by simpa using hjb)

/-! ### Claim C1: the synthesized capacity column -/

theorem dch_getD (l : List ℚ) (j : ℕ) (hj : j < l.length) :
    ((diffCol l).map clipFill).getD j 0 = dchSpec l j := by
  have hlen : j < ((diffCol l).map clipFill).length := by
    simpa [diffCol_length] using hj
  rw [List.getD_eq_getElem _ _ hlen, List.getElem_map]
  have hd : j < (diffCol l).length := by simpa [diffCol_length] using hj
  rw [← List.getD_eq_getElem (diffCol l) none hd]
  cases j with
  | zero =>
    rw [diffCol_getD_zero l (by rintro rfl; simp at hj)]
    simp [clipFill, dchSpec]
  | succ k =>
    rw [diffCol_getD_succ l 0 k hj]
    simp [clipFill, dchSpec]

/-- Claim C1: for every pair of aligned charge/discharge capacity counter
sequences, `BaseCycler.capacity_from_ch_dch` equals
`cumulative_sum(dch - ddis) + max(charge)` where `dch[0] = ddis[0] = 0` and
`dch[i] = max(charge[i] - charge[i-1], 0)` for `i > 0` (and symmetrically for
`ddis`); counter resets (negative diffs) are clipped to zero by `clip`, not
raised as errors (the function is total). -/
theorem capacity_from_ch_dch_correct (charge discharge : List ℚ)
    (hlen : discharge.length = charge.length) (hne : charge ≠ [])
    (i : ℕ) (hi : i < charge.length) :
    (capacity_from_ch_dch charge discharge).getD i 0 =
      (∑ j ∈ Finset.range (i + 1), (dchSpec charge j - dchSpec discharge j))
        + (listMax charge).getD 0 := by
  have hdch : ((diffCol charge).map clipFill).length = charge.length := by
    simp [diffCol_length]
  have hddis : ((diffCol discharge).map clipFill).length = charge.length := by
    simp [diffCol_length, hlen]
  have hz : (((diffCol charge).map clipFill).zipWith (fun a b => a - b)
      ((diffCol discharge).map clipFill)).length = charge.length := by
    rw [List.length_zipWith, hdch, hddis, min_self]
  have hiz : i < (((diffCol charge).map clipFill).zipWith (fun a b => a - b)
      ((diffCol discharge).map clipFill)).length := by omega
  have hic : i < (cumSum (((diffCol charge).map clipFill).zipWith
      (fun a b => a - b) ((diffCol discharge).map clipFill))).length := by
    rw [cumSum_length]; omega
  have hcap : i < (capacity_from_ch_dch charge discharge).length := by
    rw [capacity_from_ch_dch, List.length_map]; exact hic
  rw [capacity_from_ch_dch, List.getD_eq_getElem _ _ (by
      rw [List.length_map]; exact hic),
    List.getElem_map, ← List.getD_eq_getElem _ (0 : ℚ) hic,
    cumSum_getD _ 0 i hiz,
    sum_take_eq_sum_range _ 0 (i + 1) (by omega)]
  congr 1
  apply Finset.sum_congr rfl
  intro j hj
  have hjlt : j < charge.length := by
    have := Finset.mem_range.mp hj
    omega
  have hjd : j < discharge.length := by omega
  rw [zipWith_getD _ _ _ 0 0 0 j (by omega) (by omega),
    dch_getD charge j hjlt, dch_getD discharge j hjd]

theorem capacity_from_ch_dch_correct_witness :
    (capacity_from_ch_dch [2, 1, 5] [0, 3, 3]).getD 2 0 =
      (∑ j ∈ Finset.range 3,
        (dchSpec [2, 1, 5] j - dchSpec [0, 3, 3] j))
        + (listMax [(2 : ℚ), 1, 5]).getD 0 :=
  capacity_from_ch_dch_correct [2, 1, 5] [0, 3, 3] (by decide) (by decide) 2
    (by decide)

/-! ### Claim C2: cycle and event derivation -/

theorem cycleInd_length (s : List ℤ) : (cycleInd s).length = s.length := by
  simp [cycleInd, diffCol_length]

theorem eventInd_length (s : List ℤ) : (eventInd s).length = s.length := by
  simp [eventInd, diffCol_length]

theorem cycleInd_getD_zero (s : List ℤ) (h : s ≠ []) :
    (cycleInd s).getD 0 0 = 0 := by
  cases s with
  | nil => simp at h
  | cons x xs => simp [cycleInd, diffCol, boolToInt]

theorem eventInd_getD_zero (s : List ℤ) (h : s ≠ []) :
    (eventInd s).getD 0 0 = 0 := by
  cases s with
  | nil => simp at h
  | cons x xs => simp [eventInd, diffCol, boolToInt]

theorem cycleInd_getD_succ (s : List ℤ) (j : ℕ) (hj : j + 1 < s.length) :
    (cycleInd s).getD (j + 1) 0 =
      if s.getD (j + 1) 0 < s.getD j 0 then 1 else 0 := by
  have h1 : j + 1 < (((diffCol s).map
      (fun o => (o.map (fun x => decide (x < 0))).getD false)).map
        boolToInt).length := by
    simp only [List.length_map, diffCol_length]; omega
  rw [cycleInd, List.getD_eq_getElem _ _ h1, List.getElem_map,
    List.getElem_map,
    ← List.getD_eq_getElem (diffCol s) none (by rw [diffCol_length]; omega),
    diffCol_getD_succ s 0 j hj]
  simp [boolToInt, sub_neg]

theorem eventInd_getD_succ (s : List ℤ) (j : ℕ) (hj : j + 1 < s.length) :
    (eventInd s).getD (j + 1) 0 =
      if s.getD (j + 1) 0 ≠ s.getD j 0 then 1 else 0 := by
  have h1 : j + 1 < (((diffCol s).map
      (fun o => (o.map (fun x => decide (x ≠ 0))).getD false)).map
        boolToInt).length := by
    simp only [List.length_map, diffCol_length]; omega
  rw [eventInd, List.getD_eq_getElem _ _ h1, List.getElem_map,
    List.getElem_map,
    ← List.getD_eq_getElem (diffCol s) none (by rw [diffCol_length]; omega),
    diffCol_getD_succ s 0 j hj]
  simp [boolToInt, sub_ne_zero]

theorem cycleInd_nonneg (s : List ℤ) : ∀ x ∈ cycleInd s, 0 ≤ x := by
  intro x hx
  rcases List.mem_map.mp hx with ⟨b, _, rfl⟩
  cases b <;> simp [boolToInt]

theorem eventInd_nonneg (s : List ℤ) : ∀ x ∈ eventInd s, 0 ≤ x := by
  intro x hx
  rcases List.mem_map.mp hx with ⟨b, _, rfl⟩
  cases b <;> simp [boolToInt]

/-- Claim C2: for every step sequence of length at least 1, the derived event
sequence starts at 0 and increments by exactly 1 at each index where the step
changes (else stays equal); the derived cycle sequence starts at 0 and
increments by exactly 1 at each index where the step decreases (else stays
equal); both sequences are non-decreasing and start at 0. -/
theorem cycle_event_correct (s : List ℤ) (hN : 1 ≤ s.length) :
    (event s).getD 0 0 = 0 ∧ (cycle s).getD 0 0 = 0 ∧
    (∀ i, 0 < i → i < s.length →
      (event s).getD i 0 =
        (event s).getD (i - 1) 0 +
          (if s.getD i 0 ≠ s.getD (i - 1) 0 then 1 else 0) ∧
      (cycle s).getD i 0 =
        (cycle s).getD (i - 1) 0 +
          (if s.getD i 0 < s.getD (i - 1) 0 then 1 else 0)) ∧
    (∀ i j, i ≤ j → j < s.length →
      (event s).getD i 0 ≤ (event s).getD j 0 ∧
      (cycle s).getD i 0 ≤ (cycle s).getD j 0) := by
  have hsne : s ≠ [] := by
    intro h
    rw [h] at hN
    simp at hN
  have hev0 : (event s).getD 0 0 = 0 := by
    rw [event, cumSum_getD _ 0 0 (by rw [eventInd_length]; omega),
      sum_take_eq_sum_range _ 0 1 (by rw [eventInd_length]; omega)]
    simpa using eventInd_getD_zero s hsne
  have hcy0 : (cycle s).getD 0 0 = 0 := by
    rw [cycle, cumSum_getD _ 0 0 (by rw [cycleInd_length]; omega),
      sum_take_eq_sum_range _ 0 1 (by rw [cycleInd_length]; omega)]
    simpa using cycleInd_getD_zero s hsne
  refine ⟨hev0, hcy0, ?_, ?_⟩
  · intro i hi0 hilt
    obtain ⟨k, rfl⟩ : ∃ k, i = k + 1 := ⟨i - 1, by omega⟩
    constructor
    · rw [event, cumSum_getD_succ _ 0 k (by rw [eventInd_length]; omega),
        eventInd_getD_succ s k hilt]
      simp
    · rw [cycle, cumSum_getD_succ _ 0 k (by rw [cycleInd_length]; omega),
        cycleInd_getD_succ s k hilt]
      simp
  · intro i j hij hjlt
    exact ⟨cumSum_mono _ (eventInd_nonneg s) i j hij
        (by rw [eventInd_length]; omega),
      cumSum_mono _ (cycleInd_nonneg s) i j hij
        (by rw [cycleInd_length]; omega)⟩

theorem cycle_event_correct_witness :
    (event [(1 : ℤ), 2, 1]).getD 0 0 = 0 ∧ (cycle [(1 : ℤ), 2, 1]).getD 0 0 = 0 ∧
    (∀ i, 0 < i → i < [(1 : ℤ), 2, 1].length →
      (event [(1 : ℤ), 2, 1]).getD i 0 =
        (event [(1 : ℤ), 2, 1]).getD (i - 1) 0 +
          (if [(1 : ℤ), 2, 1].getD i 0 ≠ [(1 : ℤ), 2, 1].getD (i - 1) 0
            then 1 else 0) ∧
      (cycle [(1 : ℤ), 2, 1]).getD i 0 =
        (cycle [(1 : ℤ), 2, 1]).getD (i - 1) 0 +
          (if [(1 : ℤ), 2, 1].getD i 0 < [(1 : ℤ), 2, 1].getD (i - 1) 0
            then 1 else 0)) ∧
    (∀ i j, i ≤ j → j < [(1 : ℤ), 2, 1].length →
      (event [(1 : ℤ), 2, 1]).getD i 0 ≤ (event [(1 : ℤ), 2, 1]).getD j 0 ∧
      (cycle [(1 : ℤ), 2, 1]).getD i 0 ≤ (cycle [(1 : ℤ), 2, 1]).getD j 0) :=
  cycle_event_correct [1, 2, 1] (by decide)

/-! ### BaseCycler.dataframe_list (src/pyprobe/cyclers/basecycler.py)

The schema-consistency check of `dataframe_list`: frames are modelled by
their column-name lists (the check inspects nothing else).  Globbing,
sorting and the per-file read are I/O performed before this check; the
emitted `warnings.warn` side effect is not part of the returned value. -/

/-- Embedding of the body of `BaseCycler.dataframe_list` after the files have
been read: `all_columns = set(col for df in list for col in df.columns)`,
`indices_to_remove = [i | len(list[i].columns) < len(all_columns)]`, and the
final comprehension keeps each frame whose index was not removed. -/
def dataframe_list (frames : List (List String)) : List (List String) :=
  ((frames.enum).filter (fun p => decide (p.1 ∉
      (List.range frames.length).filter
        (fun i => decide ((frames.getD i []).length <
          frames.flatten.toFinset.card))))).map Prod.snd

theorem enumFrom_filter_snd {α : Type} (q : α → Bool) (k : ℕ) (l : List α) :
    ((List.enumFrom k l).filter (fun p => q p.2)).map Prod.snd = l.filter q := by
  induction l generalizing k with
  | nil => rfl
  | cons x xs ih =>
    simp only [List.enumFrom, List.filter_cons]
    by_cases hq : q x
    · simp [hq, ih]
    · simp [hq, ih]

theorem mem_enum_pair {α : Type} (l : List α) (p : ℕ × α) (hp : p ∈ l.enum) :
    p.1 < l.length ∧ l.getD p.1 p.2 = p.2 := by
  have h1 : p.1 < l.length := List.fst_lt_of_mem_enum hp
  have h2 : l[p.1] = p.2 := by
    have := List.mem_enum_iff_getElem?.mp hp
    rw [List.getElem?_eq_getElem h1] at this
    exact (Option.some.injEq _ _).mp this
  exact ⟨h1, by rw [List.getD_eq_getElem _ _ h1, h2]⟩

/-- Claim C6: in a multi-file set, exactly the files whose column count is
strictly less than the size of the union of all files' column names are
dropped; the remaining files are kept, in order, and processing continues
with them (exclusion, not an aborting error: the function is total). -/
theorem dataframe_list_drops_short (frames : List (List String)) :
    dataframe_list frames =
      frames.filter
        (fun f => decide (¬ f.length < frames.flatten.toFinset.card)) := by
  rw [dataframe_list]
  have hcongr : (frames.enum).filter (fun p => decide (p.1 ∉
      (List.range frames.length).filter
        (fun i => decide ((frames.getD i []).length <
          frames.flatten.toFinset.card)))) =
      (frames.enum).filter
        (fun p => decide (¬ p.2.length < frames.flatten.toFinset.card)) := by
    apply List.filter_congr
    intro p hp
    obtain ⟨hlt, hget⟩ := mem_enum_pair frames p hp
    have hgetD : frames.getD p.1 [] = p.2 := by
      rw [List.getD_eq_getElem _ _ hlt] at hget ⊢
      exact hget
    simp only [decide_eq_decide, List.mem_filter, List.mem_range, hgetD]
    constructor
    · intro h hlen
      exact h ⟨hlt, by simpa using hlen⟩
    · intro h hand
      rcases hand with ⟨_, hlen⟩
      exact h (by simpa using hlen)
  rw [hcongr]
  exact enumFrom_filter_snd
    (fun f => decide (¬ f.length < frames.flatten.toFinset.card)) 0 frames

/-- Claim C9: with duplicate-free per-file column lists, a file survives the
schema-consistency check of `dataframe_list` exactly when its column set
equals the union of all files' column sets; two files with distinct column
sets of equal size therefore both get dropped, returning the empty list. -/
theorem dataframe_list_keep_iff :
    (∀ frames : List (List String), (∀ f ∈ frames, f.Nodup) →
      dataframe_list frames =
        frames.filter (fun f => decide (f.toFinset = frames.flatten.toFinset))) ∧
    dataframe_list [["A", "B"], ["A", "C"]] = [] := by
  constructor
  · intro frames hnd
    rw [dataframe_list_drops_short]
    apply List.filter_congr
    intro f hf
    have hsub : f.toFinset ⊆ frames.flatten.toFinset := by
      intro x hx
      rw [List.mem_toFinset] at hx ⊢
      exact List.mem_flatten.mpr ⟨f, hf, hx⟩
    have hcard : f.toFinset.card = f.length :=
      List.toFinset_card_of_nodup (hnd f hf)
    simp only [decide_eq_decide]
    constructor
    · intro h
      exact Finset.eq_of_subset_of_card_le hsub (by omega)
    · intro h hlen
      rw [← h] at hlen
      omega
  · decide

theorem dataframe_list_keep_iff_witness :
    dataframe_list [["A"], ["A", "B"]] =
      [["A"], ["A", "B"]].filter
        (fun f => decide (f.toFinset = [["A"], ["A", "B"]].flatten.toFinset)) :=
  dataframe_list_keep_iff.1 [["A"], ["A", "B"]] (by decide)

/-! ### BaseCycler.search_columns (src/pyprobe/cyclers/basecycler.py)

Modelled from the spec: `UnitConverter.get_quantity_and_unit` lives in
`pyprobe/unitconverter.py`, which is not part of the sources; per the spec
it extracts a `(quantity, unit)` pair from a column name and a NamePattern
or fails.  It is abstracted here as a parameter `parse` returning
`Option (String × String)` (`none` models the `ValueError` that the
`try/except` skips); the scanning loop itself is the source's. -/

/-- Embedding of `BaseCycler.search_columns`: scan the columns in order,
skip names the parser rejects, return the first whose resolved quantity
equals `search_quantity` (the resulting `UnitConverter` is identified by the
column name it is built from), else raise
`ValueError("Quantity ... not found in columns.")`. -/
def search_columns (parse : String → String → Option (String × String))
    (search_quantity name_pattern : String) :
    List String → Except String String
  | [] =>
    Except.error ("Quantity " ++ search_quantity ++ " not found in columns.")
  | c :: rest =>
    match parse c name_pattern with
    | none => search_columns parse search_quantity name_pattern rest
    | some (q, _) =>
      if q = search_quantity then Except.ok c
      else search_columns parse search_quantity name_pattern rest

/-- Predicate of claim C7: the column parses under the pattern and its
resolved quantity equals the searched quantity. -/
def matchesQuantity (parse : String → String → Option (String × String))
    (search_quantity name_pattern : String) (c : String) : Bool :=
  match parse c name_pattern with
  | none => false
  | some (q, _) => q == search_quantity

/-- Claim C7: for every parser, ordered column list, quantity and pattern,
`search_columns` returns the first column (in the given order) whose
resolved quantity equals the searched quantity — unparsable columns are
skipped, not fatal — and returns the error if and only if no column in the
list matches. -/
theorem search_columns_correct
    (parse : String → String → Option (String × String))
    (q pat : String) (cols : List String) :
    (∀ c : String,
      (search_columns parse q pat cols = Except.ok c ↔
        cols.find? (matchesQuantity parse q pat) = some c)) ∧
    ((∃ e, search_columns parse q pat cols = Except.error e) ↔
      ∀ c ∈ cols, matchesQuantity parse q pat c = false) := by
  induction cols with
  | nil =>
    constructor
    · intro c
      simp [search_columns]
    · simp [search_columns]
  | cons c rest ih =>
    rcases ih with ⟨ih1, ih2⟩
    have hm : matchesQuantity parse q pat c =
        match parse c pat with
        | none => false
        | some (q', _) => q' == q := rfl
    cases hp : parse c pat with
    | none =>
      have hms : matchesQuantity parse q pat c = false := by rw [hm, hp]
      have hs : search_columns parse q pat (c :: rest) =
          search_columns parse q pat rest := by
        rw [search_columns, hp]
      constructor
      · intro x
        rw [hs, List.find?_cons_of_neg _ (by simp [hms]), ih1]
      · rw [hs]
        simp only [List.mem_cons]
        constructor
        · intro h x hx
          rcases hx with rfl | hx
          · exact hms
          · exact ih2.mp h x hx
        · intro h
          exact ih2.mpr (fun x hx => h x (Or.inr hx))
    | some pair =>
      obtain ⟨q', u⟩ := pair
      by_cases hq : q' = q
      · have hms : matchesQuantity parse q pat c = true := by
          rw [hm, hp]
          simp [hq]
        have hs : search_columns parse q pat (c :: rest) = Except.ok c := by
          rw [search_columns, hp]
          simp [hq]
        constructor
        · intro x
          rw [hs, List.find?_cons_of_pos _ hms]
          constructor
          · intro h
            injection h with h
            rw [h]
          · intro h
            injection h with h
            rw [h]
        · rw [hs]
          constructor
          · rintro ⟨e, he⟩
            exact absurd he (by simp)
          · intro h
            have := h c (by simp)
            rw [hms] at this
            exact absurd this (by simp)
      · have hms : matchesQuantity parse q pat c = false := by
          rw [hm, hp]
          simp [hq]
        have hs : search_columns parse q pat (c :: rest) =
            search_columns parse q pat rest := by
          rw [search_columns, hp]
          simp [hq]
        constructor
        · intro x
          rw [hs, List.find?_cons_of_neg _ (by simp [hms]), ih1]
        · rw [hs]
          simp only [List.mem_cons]
          constructor
          · intro h x hx
            rcases hx with rfl | hx
            · exact hms
            · exact ih2.mp h x hx
          · intro h
            exact ih2.mpr (fun x hx => h x (Or.inr hx))

/-! ### BiologicMB (src/pyprobe/cyclers/biologic.py)

A multi-file Modulo Bat table.  A raw row carries its `Ns` step value
(already an integer; the `cast(pl.Int64)` is the identity there) and the
remaining, possibly-null data cells.  `get_imported_dataframe` tags each
file's rows with a 0-based `MB File` literal and concatenates vertically. -/

/-- Row of the concatenated table: `MB File` tag, `Ns`, other columns. -/
structure MBRow where
  mb : ℕ
  ns : ℤ
  data : List (Option ℚ)
deriving DecidableEq

/-- Row after `apply_step_correction`: `fill_null(0)` removed all nulls.
The joined `Max_Step` helper column is determined by `mb` and omitted. -/
structure MBRowOut where
  mb : ℕ
  ns : ℤ
  data : List ℚ
deriving DecidableEq

/-- Tagging loop of `BiologicMB.get_imported_dataframe`:
`df.with_columns(pl.lit(i).alias("MB File"))` for the i-th file, then
vertical concatenation. -/
def tagFilesAux (i : ℕ) : List (List (ℤ × List (Option ℚ))) → List MBRow
  | [] => []
  | f :: fs => f.map (fun r => ⟨i, r.1, r.2⟩) ++ tagFilesAux (i + 1) fs

/-- Concatenated table with 0-based source-file tags. -/
def tagFiles (files : List (List (ℤ × List (Option ℚ)))) : List MBRow :=
  tagFilesAux 0 files

/-- Insert a key into a sorted duplicate-free list of keys. -/
def insertKey (k : ℕ) : List ℕ → List ℕ
  | [] => [k]
  | x :: xs =>
    if k = x then x :: xs
    else if k < x then k :: x :: xs
    else x :: insertKey k xs

/-- polars `group_by("MB File")` keys followed by `.sort("MB File")`: the
distinct tag values in ascending order. -/
def sortedKeys (l : List ℕ) : List ℕ :=
  l.foldl (fun acc k => insertKey k acc) []

/-- polars `pl.col("Ns").max()` over the group of rows tagged `k`. -/
def maxNs (df : List MBRow) (k : ℕ) : ℤ :=
  (listMax ((df.filter (fun r => r.mb == k)).map (fun r => r.ns))).getD 0

/-- The `max_steps` helper frame of `apply_step_correction` after
`max() + 1`, `sort("MB File")`, `cum_sum()` and `MB File + 1`: association
list from shifted file tag to cumulative offset. -/
def offsetsOf (df : List MBRow) : List (ℕ × ℤ) :=
  ((sortedKeys (df.map (fun r => r.mb))).map (fun k => k + 1)).zip
    (cumSum ((sortedKeys (df.map (fun r => r.mb))).map
      (fun k => maxNs df k + 1)))

/-- Left join on `MB File` against `offsetsOf` followed by `fill_null(0)`
on the join-produced column: the per-row `Max_Step` value. -/
def offsetFor (df : List MBRow) (m : ℕ) : ℤ :=
  ((offsetsOf df).lookup m).getD 0

/-- Embedding of `BiologicMB.apply_step_correction`: group max + 1 per
file, cumulative sum, shift the join key by one, left join, `fill_null(0)`
over the whole joined frame (hence also over the data cells), and replace
`Ns` by `Ns + Max_Step`. -/
def apply_step_correction (df : List MBRow) : List MBRowOut :=
  df.map (fun r =>
    ⟨r.mb, r.ns + offsetFor df r.mb, r.data.map (fun c => c.getD 0)⟩)

/-- Embedding of `BiologicMB.get_imported_dataframe`. -/
def get_imported_dataframe (files : List (List (ℤ × List (Option ℚ)))) :
    List MBRowOut :=
  apply_step_correction (tagFiles files)

/-- Claim C3's per-file maximum raw step value of file `j`. -/
def fileMax (files : List (List (ℤ × List (Option ℚ)))) (j : ℕ) : ℤ :=
  (listMax ((files.getD j []).map (fun r => r.1))).getD 0

/-! ### Lemmas about the BiologicMB model -/

theorem foldl_max_le_init (as : List ℤ) (acc : ℤ) :
    acc ≤ as.foldl max acc := by
  induction as generalizing acc with
  | nil => exact le_refl _
  | cons a as ih =>
    exact le_trans (le_max_left acc a) (ih (max acc a))

theorem foldl_max_le_mem (as : List ℤ) (acc x : ℤ) (hx : x ∈ as) :
    x ≤ as.foldl max acc := by
  induction as generalizing acc with
  | nil => simp at hx
  | cons a as ih =>
    rcases List.mem_cons.mp hx with rfl | hx
    · exact le_trans (le_max_right acc x) (foldl_max_le_init as (max acc x))
    · exact ih (max acc a) hx

theorem le_listMax (l : List ℤ) (x : ℤ) (hx : x ∈ l) :
    x ≤ (listMax l).getD 0 := by
  cases l with
  | nil => simp at hx
  | cons a as =>
    rcases List.mem_cons.mp hx with rfl | hx
    · exact foldl_max_le_init as x
    · exact foldl_max_le_mem as a x hx

theorem mem_tagFilesAux_mb (fs : List (List (ℤ × List (Option ℚ))))
    (i : ℕ) (r : MBRow) (hr : r ∈ tagFilesAux i fs) :
    i ≤ r.mb ∧ r.mb < i + fs.length := by
  induction fs generalizing i with
  | nil => simp [tagFilesAux] at hr
  | cons f fs ih =>
    rw [tagFilesAux, List.mem_append] at hr
    rcases hr with hr | hr
    · rcases List.mem_map.mp hr with ⟨p, _, rfl⟩
      simp
    · have := ih (i + 1) hr
      constructor <;> [omega; (simp only [List.length_cons]; omega)]

theorem mem_map_mb_tagFilesAux (fs : List (List (ℤ × List (Option ℚ))))
    (i k : ℕ) (hne : ∀ f ∈ fs, f ≠ []) :
    k ∈ (tagFilesAux i fs).map (fun r => r.mb) ↔
      i ≤ k ∧ k < i + fs.length := by
  induction fs generalizing i with
  | nil => simp [tagFilesAux]
  | cons f fs ih =>
    rw [tagFilesAux, List.map_append, List.mem_append]
    have hf : f ≠ [] := hne f (by simp)
    have hmem : k ∈ (f.map (fun r => (⟨i, r.1, r.2⟩ : MBRow))).map
        (fun r => r.mb) ↔ k = i := by
      rw [List.map_map]
      constructor
      · intro h
        rcases List.mem_map.mp h with ⟨p, _, rfl⟩
        rfl
      · intro h
        subst h
        cases f with
        | nil => simp at hf
        | cons p ps => exact List.mem_map.mpr ⟨p, by simp, rfl⟩
    rw [hmem, ih (i + 1) (fun g hg => hne g (by simp [hg]))]
    simp only [List.length_cons]
    omega

theorem mem_insertKey (k x : ℕ) (l : List ℕ) :
    x ∈ insertKey k l ↔ x = k ∨ x ∈ l := by
  induction l with
  | nil => simp [insertKey]
  | cons a as ih =>
    rw [insertKey]
    by_cases h1 : k = a
    · subst h1
      simp only [if_pos]
      simp only [List.mem_cons]
      tauto
    · rw [if_neg h1]
      by_cases h2 : k < a
      · rw [if_pos h2]
        simp only [List.mem_cons]
      · rw [if_neg h2]
        simp only [List.mem_cons, ih]
        tauto

theorem pairwise_insertKey (k : ℕ) (l : List ℕ)
    (hl : l.Pairwise (· < ·)) : (insertKey k l).Pairwise (· < ·) := by
  induction l with
  | nil => simp [insertKey]
  | cons a as ih =>
    rw [List.pairwise_cons] at hl
    obtain ⟨ha, has⟩ := hl
    rw [insertKey]
    by_cases h1 : k = a
    · subst h1
      rw [if_pos rfl, List.pairwise_cons]
      exact ⟨ha, has⟩
    · rw [if_neg h1]
      by_cases h2 : k < a
      · rw [if_pos h2, List.pairwise_cons]
        refine ⟨?_, List.pairwise_cons.mpr ⟨ha, has⟩⟩
        intro x hx
        rcases List.mem_cons.mp hx with rfl | hx
        · exact h2
        · exact lt_trans h2 (ha x hx)
      · rw [if_neg h2, List.pairwise_cons]
        have hak : a < k := by omega
        refine ⟨?_, ih has⟩
        intro x hx
        rcases (mem_insertKey k x as).mp hx with rfl | hx
        · exact hak
        · exact ha x hx

theorem foldl_insertKey_pairwise (l acc : List ℕ)
    (hacc : acc.Pairwise (· < ·)) :
    (l.foldl (fun a k => insertKey k a) acc).Pairwise (· < ·) := by
  induction l generalizing acc with
  | nil => exact hacc
  | cons x xs ih => exact ih (insertKey x acc) (pairwise_insertKey x acc hacc)

theorem mem_foldl_insertKey (l : List ℕ) (acc : List ℕ) (x : ℕ) :
    x ∈ l.foldl (fun a k => insertKey k a) acc ↔ x ∈ acc ∨ x ∈ l := by
  induction l generalizing acc with
  | nil => simp
  | cons y ys ih =>
    rw [List.foldl_cons, ih (insertKey y acc), mem_insertKey]
    simp only [List.mem_cons]
    tauto

theorem sortedKeys_pairwise (l : List ℕ) :
    (sortedKeys l).Pairwise (· < ·) :=
  foldl_insertKey_pairwise l [] (by simp)

theorem mem_sortedKeys (l : List ℕ) (x : ℕ) :
    x ∈ sortedKeys l ↔ x ∈ l := by
  rw [sortedKeys, mem_foldl_insertKey]
  simp

theorem eq_of_pairwise_lt_of_mem_iff (l1 : List ℕ) :
    ∀ l2 : List ℕ, l1.Pairwise (· < ·) → l2.Pairwise (· < ·) →
      (∀ x, x ∈ l1 ↔ x ∈ l2) → l1 = l2 := by
  induction l1 with
  | nil =>
    intro l2 _ _ hm
    cases l2 with
    | nil => rfl
    | cons b t2 =>
      have := (hm b).mpr (by simp)
      simp at this
  | cons a t ih =>
    intro l2 h1 h2 hm
    cases l2 with
    | nil =>
      have := (hm a).mp (by simp)
      simp at this
    | cons b t2 =>
      rw [List.pairwise_cons] at h1 h2
      have hab : a = b := by
        by_contra hne
        have ha2 : a ∈ b :: t2 := (hm a).mp (by simp)
        have hb1 : b ∈ a :: t := (hm b).mpr (by simp)
        rcases List.mem_cons.mp ha2 with h | h
        · exact hne h
        · have hba : b < a := h2.1 a h
          rcases List.mem_cons.mp hb1 with h' | h'
          · exact hne h'.symm
          · have : a < b := h1.1 b h'
            omega
      subst hab
      congr 1
      apply ih t2 h1.2 h2.2
      intro x
      constructor
      · intro hx
        have hax : a < x := h1.1 x hx
        have : x ∈ a :: t2 := (hm x).mp (by simp [hx])
        rcases List.mem_cons.mp this with rfl | h
        · omega
        · exact h
      · intro hx
        have hax : a < x := h2.1 x hx
        have : x ∈ a :: t := (hm x).mpr (by simp [hx])
        rcases List.mem_cons.mp this with rfl | h
        · omega
        · exact h

theorem sortedKeys_tagFiles_eq_range
    (files : List (List (ℤ × List (Option ℚ))))
    (hne : ∀ f ∈ files, f ≠ []) :
    sortedKeys ((tagFiles files).map (fun r => r.mb)) =
      List.range files.length := by
  apply eq_of_pairwise_lt_of_mem_iff
  · exact sortedKeys_pairwise _
  · exact List.pairwise_lt_range _
  · intro x
    rw [mem_sortedKeys, tagFiles, mem_map_mb_tagFilesAux files 0 x hne,
      List.mem_range]
    omega

theorem filter_tagFilesAux (fs : List (List (ℤ × List (Option ℚ)))) :
    ∀ (i j : ℕ), j < fs.length →
      (tagFilesAux i fs).filter (fun r => r.mb == i + j) =
        (fs.getD j []).map (fun r => ⟨i + j, r.1, r.2⟩) := by
  induction fs with
  | nil => intro i j hj; simp at hj
  | cons f fs ih =>
    intro i j hj
    rw [tagFilesAux, List.filter_append]
    cases j with
    | zero =>
      have h1 : (f.map (fun r => (⟨i, r.1, r.2⟩ : MBRow))).filter
          (fun r => r.mb == i + 0) =
          f.map (fun r => (⟨i + 0, r.1, r.2⟩ : MBRow)) := by
        rw [Nat.add_zero, List.filter_map]
        have : (fun r : ℤ × List (Option ℚ) =>
            ((fun r : MBRow => r.mb == i) ∘ fun r => (⟨i, r.1, r.2⟩ : MBRow)) r)
            = fun _ => true := by
          funext r
          simp [Function.comp]
        rw [List.filter_congr (fun x _ => congrFun this x), List.filter_true]
      have h2 : (tagFilesAux (i + 1) fs).filter
          (fun r => r.mb == i + 0) = [] := by
        rw [List.filter_eq_nil_iff]
        intro r hr
        have := (mem_tagFilesAux_mb fs (i + 1) r hr).1
        simp only [Nat.add_zero, beq_iff_eq]
        omega
      rw [h1, h2, List.append_nil]
      rfl
    | succ j0 =>
      have h1 : (f.map (fun r => (⟨i, r.1, r.2⟩ : MBRow))).filter
          (fun r => r.mb == i + (j0 + 1)) = [] := by
        rw [List.filter_eq_nil_iff]
        intro r hr
        rcases List.mem_map.mp hr with ⟨p, _, rfl⟩
        simp only [beq_iff_eq]
        omega
      have harith : i + (j0 + 1) = (i + 1) + j0 := by omega
      rw [h1, List.nil_append, harith,
        ih (i + 1) j0 (by simpa using hj)]
      rfl

theorem maxNs_tagFiles (files : List (List (ℤ × List (Option ℚ))))
    (k : ℕ) (hk : k < files.length) :
    maxNs (tagFiles files) k = fileMax files k := by
  rw [maxNs, fileMax, tagFiles]
  have hfilter := filter_tagFilesAux files 0 k (by omega)
  simp only [Nat.zero_add] at hfilter
  rw [hfilter, List.map_map]
  rfl

theorem lookup_not_mem_fst (ps : List (ℕ × ℤ)) (k : ℕ)
    (h : k ∉ ps.map Prod.fst) : ps.lookup k = none := by
  induction ps with
  | nil => rfl
  | cons p ps ih =>
    obtain ⟨a, b⟩ := p
    simp only [List.map_cons, List.mem_cons] at h
    push_neg at h
    rw [List.lookup_cons]
    have : (k == a) = false := by
      rw [beq_eq_false_iff_ne]
      exact h.1
    rw [this]
    exact ih h.2

theorem lookup_range'_zip (m : ℕ) :
    ∀ (s : ℕ) (vs : List ℤ) (j : ℕ), vs.length = m → j < m →
      ((List.range' s m).zip vs).lookup (s + j) = vs[j]? := by
  induction m with
  | zero => intro s vs j _ hj; omega
  | succ n ih =>
    intro s vs j hlen hj
    cases vs with
    | nil => simp at hlen
    | cons v vs =>
      rw [List.range'_succ, List.zip_cons_cons]
      cases j with
      | zero =>
        rw [Nat.add_zero, List.lookup_cons]
        simp
      | succ j0 =>
        rw [List.lookup_cons]
        have hne : (s + (j0 + 1) == s) = false := by
          rw [beq_eq_false_iff_ne]
          omega
        rw [hne]
        have harith : s + (j0 + 1) = (s + 1) + j0 := by omega
        rw [harith, ih (s + 1) vs j0 (by simpa using hlen) (by omega)]
        simp

theorem range_map_succ_eq_range' (m : ℕ) :
    (List.range m).map (fun x => x + 1) = List.range' 1 m := by
  rw [List.range'_eq_map_range]
  apply List.map_congr_left
  intro x _
  omega

theorem offsetFor_tagFiles (files : List (List (ℤ × List (Option ℚ))))
    (hne : ∀ f ∈ files, f ≠ []) (k : ℕ) (hk : k < files.length) :
    offsetFor (tagFiles files) k =
      ∑ j ∈ Finset.range k, (fileMax files j + 1) := by
  have hkeys := sortedKeys_tagFiles_eq_range files hne
  rw [offsetFor, offsetsOf, hkeys, range_map_succ_eq_range']
  have hvslen : (cumSum ((List.range files.length).map
      (fun k => maxNs (tagFiles files) k + 1))).length = files.length := by
    rw [cumSum_length, List.length_map, List.length_range]
  cases Nat.eq_zero_or_pos k with
  | inl h0 =>
    subst h0
    have hnot : (0 : ℕ) ∉ ((List.range' 1 files.length).zip
        (cumSum ((List.range files.length).map
          (fun k => maxNs (tagFiles files) k + 1)))).map Prod.fst := by
      intro hmem
      rw [List.map_fst_zip _ _ (by
        rw [List.length_range', hvslen])] at hmem
      rw [List.mem_range'_1] at hmem
      omega
    rw [lookup_not_mem_fst _ 0 hnot]
    simp
  | inr hpos =>
    obtain ⟨j0, rfl⟩ : ∃ j0, k = 1 + j0 := ⟨k - 1, by omega⟩
    rw [lookup_range'_zip files.length 1 _ j0 hvslen (by omega)]
    have hj0 : j0 < (cumSum ((List.range files.length).map
        (fun k => maxNs (tagFiles files) k + 1))).length := by
      rw [hvslen]; omega
    rw [List.getElem?_eq_getElem hj0, ← List.getD_eq_getElem _ 0 hj0]
    simp only [Option.getD_some]
    rw [cumSum_getD _ 0 j0 (by rw [List.length_map, List.length_range]; omega),
      sum_take_eq_sum_range _ 0 (j0 + 1)
        (by rw [List.length_map, List.length_range]; omega)]
    apply Finset.sum_congr (by rw [Nat.add_comm])
    intro j hj
    rw [Finset.mem_range] at hj
    have hjm : j < files.length := by omega
    have hjmap : j < ((List.range files.length).map
        (fun k => maxNs (tagFiles files) k + 1)).length := by
      rw [List.length_map, List.length_range]; omega
    rw [List.getD_eq_getElem _ 0 hjmap, List.getElem_map, List.getElem_range,
      maxNs_tagFiles files j hjm]

theorem chain_tagFilesAux (fs : List (List (ℤ × List (Option ℚ)))) :
    ∀ (i0 : ℕ) (g : ℕ → ℤ),
      (∀ f ∈ fs, f ≠ []) →
      (∀ f ∈ fs, List.Chain' (· ≤ ·) (f.map (fun r => r.1))) →
      (∀ f ∈ fs, ∀ r ∈ f, 0 ≤ r.1) →
      (∀ j, j + 1 < fs.length →
        g (i0 + j + 1) = g (i0 + j) +
          (listMax ((fs.getD j []).map (fun r => r.1))).getD 0 + 1) →
      List.Chain' (· ≤ ·)
        ((tagFilesAux i0 fs).map (fun r => r.ns + g r.mb)) := by
  induction fs with
  | nil =>
    intro i0 g _ _ _ _
    simp [tagFilesAux]
  | cons f rest ih =>
    intro i0 g hne hch hpos hg
    rw [tagFilesAux, List.map_append]
    apply List.Chain'.append
    · have hcf := hch f (by simp)
      rw [List.chain'_map] at hcf
      rw [List.chain'_map, List.chain'_map]
      exact hcf.imp (fun a b h => by
        show a.1 + g i0 ≤ b.1 + g i0
        exact add_le_add_right h _)
    · apply ih (i0 + 1) g
      · exact fun f hf => hne f (by simp [hf])
      · exact fun f hf => hch f (by simp [hf])
      · exact fun f hf => hpos f (by simp [hf])
      · intro j hj
        have e1 : (i0 + 1) + j + 1 = i0 + (j + 1) + 1 := by omega
        have e2 : (i0 + 1) + j = i0 + (j + 1) := by omega
        have e3 : rest.getD j [] = (f :: rest).getD (j + 1) [] := rfl
        rw [e1, e2, e3]
        exact hg (j + 1) (by simp only [List.length_cons] at hj ⊢; omega)
    · intro x hx y hy
      obtain ⟨hxl, hxeq⟩ := List.mem_getLast?_eq_getLast hx
      have hxmem : x ∈ ((f.map (fun r => (⟨i0, r.1, r.2⟩ : MBRow))).map
          (fun r => r.ns + g r.mb)) := hxeq ▸ List.getLast_mem hxl
      rw [List.map_map] at hxmem
      rcases List.mem_map.mp hxmem with ⟨p, hp, rfl⟩
      cases rest with
      | nil => simp [tagFilesAux] at hy
      | cons f1 rest1 =>
        have hf1 : f1 ≠ [] := hne f1 (by simp)
        cases hf1e : f1 with
        | nil => exact absurd hf1e hf1
        | cons q f1t =>
          have hy2 : y ∈ ((tagFilesAux (i0 + 1) (f1 :: rest1)).map
              (fun r => r.ns + g r.mb)).head? := hy
          rw [tagFilesAux, hf1e, List.map_cons, List.cons_append,
            List.map_cons, List.head?_cons] at hy2
          have hyeq : y = q.1 + g (i0 + 1) := by
            have := Option.mem_some_iff.mp hy2
            rw [← this]
          have hstep : g (i0 + 1) = g i0 +
              (listMax (((f :: f1 :: rest1).getD 0 []).map
                (fun r => r.1))).getD 0 + 1 := by
            have := hg 0 (by simp)
            simpa using this
          have hple : p.1 ≤ (listMax (f.map (fun r => r.1))).getD 0 :=
            le_listMax _ _ (List.mem_map.mpr ⟨p, hp, rfl⟩)
          have hq0 : 0 ≤ q.1 := hpos f1 (by simp) q (by rw [hf1e]; simp)
          have hgd : ((f :: f1 :: rest1).getD 0 []) = f := rfl
          rw [hgd] at hstep
          show p.1 + g i0 ≤ y
          rw [hyeq, hstep]
          omega

/-- Claim C3 (amended): for a multi-file table built by tagging each
nonempty file's rows with its 0-based index and concatenating,
`apply_step_correction` adds to every row of file `k` the cumulative sum
over files `0..k-1` of (per-file maximum raw step + 1), file 0 receiving
offset 0; and when every file's raw steps are internally non-decreasing
and non-negative, the corrected step column is non-decreasing across the
whole table. -/
theorem apply_step_correction_correct
    (files : List (List (ℤ × List (Option ℚ))))
    (hne : ∀ f ∈ files, f ≠ []) :
    (∀ i, i < (tagFiles files).length →
      ((apply_step_correction (tagFiles files)).getD i ⟨0, 0, []⟩).ns =
        ((tagFiles files).getD i ⟨0, 0, []⟩).ns +
          ∑ j ∈ Finset.range ((tagFiles files).getD i ⟨0, 0, []⟩).mb,
            (fileMax files j + 1)) ∧
    ((∀ f ∈ files, List.Chain' (· ≤ ·) (f.map (fun r => r.1))) →
      (∀ f ∈ files, ∀ r ∈ f, 0 ≤ r.1) →
      List.Chain' (· ≤ ·)
        ((apply_step_correction (tagFiles files)).map (fun r => r.ns))) := by
  have hmblt : ∀ r ∈ tagFiles files, r.mb < files.length := by
    intro r hr
    have := mem_tagFilesAux_mb files 0 r hr
    omega
  constructor
  · intro i hi
    have hlen : i < (apply_step_correction (tagFiles files)).length := by
      rw [apply_step_correction, List.length_map]
      exact hi
    rw [apply_step_correction, List.getD_eq_getElem _ _ (by
        rw [List.length_map]; exact hi), List.getElem_map,
      ← List.getD_eq_getElem (tagFiles files) ⟨0, 0, []⟩ hi]
    show ((tagFiles files).getD i ⟨0, 0, []⟩).ns +
        offsetFor (tagFiles files) ((tagFiles files).getD i ⟨0, 0, []⟩).mb = _
    rw [offsetFor_tagFiles files hne _ (hmblt _ (by
      rw [List.getD_eq_getElem (tagFiles files) ⟨0, 0, []⟩ hi]
      exact List.getElem_mem hi))]
  · intro hch hpos
    have hmap : (apply_step_correction (tagFiles files)).map (fun r => r.ns) =
        (tagFiles files).map
          (fun r => r.ns + offsetFor (tagFiles files) r.mb) := by
      rw [apply_step_correction, List.map_map]
      rfl
    rw [hmap]
    have hcongr : (tagFiles files).map
        (fun r => r.ns + offsetFor (tagFiles files) r.mb) =
        (tagFiles files).map
          (fun r => r.ns + ∑ j ∈ Finset.range r.mb, (fileMax files j + 1)) := by
      apply List.map_congr_left
      intro r hr
      rw [offsetFor_tagFiles files hne _ (hmblt r hr)]
    rw [hcongr]
    apply chain_tagFilesAux files 0
      (fun k => ∑ j ∈ Finset.range k, (fileMax files j + 1)) hne hch hpos
    intro j hj
    simp only [Nat.zero_add]
    rw [Finset.sum_range_succ]
    exact (add_assoc _ _ _).symm

theorem apply_step_correction_correct_witness :
    ((apply_step_correction (tagFiles
        [[((1 : ℤ), ([] : List (Option ℚ))), ((3 : ℤ), [])],
         [((0 : ℤ), ([] : List (Option ℚ))), ((2 : ℤ), [])]])).getD 2
        ⟨0, 0, []⟩).ns =
      ((tagFiles
        [[((1 : ℤ), ([] : List (Option ℚ))), ((3 : ℤ), [])],
         [((0 : ℤ), ([] : List (Option ℚ))), ((2 : ℤ), [])]]).getD 2
        ⟨0, 0, []⟩).ns +
        ∑ j ∈ Finset.range ((tagFiles
          [[((1 : ℤ), ([] : List (Option ℚ))), ((3 : ℤ), [])],
           [((0 : ℤ), ([] : List (Option ℚ))), ((2 : ℤ), [])]]).getD 2
          ⟨0, 0, []⟩).mb,
          (fileMax
            [[((1 : ℤ), ([] : List (Option ℚ))), ((3 : ℤ), [])],
             [((0 : ℤ), ([] : List (Option ℚ))), ((2 : ℤ), [])]] j + 1) :=
  (apply_step_correction_correct
    [[((1 : ℤ), ([] : List (Option ℚ))), ((3 : ℤ), [])],
     [((0 : ℤ), ([] : List (Option ℚ))), ((2 : ℤ), [])]]
    (by decide)).1 2 (by decide)

/-- Claim C3 counterexample: two internally non-decreasing single-row files
whose second file holds a negative raw step; the corrected step column
`[5, -4]` is not non-decreasing across the file boundary, refuting the
claim as stated (without a non-negativity hypothesis). -/
theorem apply_step_correction_not_monotone :
    (∀ f ∈ [[((5 : ℤ), ([] : List (Option ℚ)))],
            [((-10 : ℤ), ([] : List (Option ℚ)))]],
        List.Chain' (· ≤ ·) (f.map (fun r => r.1))) ∧
    (apply_step_correction (tagFiles
        [[((5 : ℤ), ([] : List (Option ℚ)))],
         [((-10 : ℤ), ([] : List (Option ℚ)))]])).map (fun r => r.ns) =
      [5, -4] ∧
    ¬ List.Chain' (· ≤ ·)
      ((apply_step_correction (tagFiles
          [[((5 : ℤ), ([] : List (Option ℚ)))],
           [((-10 : ℤ), ([] : List (Option ℚ)))]])).map (fun r => r.ns)) := by
  have h2 : (apply_step_correction (tagFiles
      [[((5 : ℤ), ([] : List (Option ℚ)))],
       [((-10 : ℤ), ([] : List (Option ℚ)))]])).map (fun r => r.ns) =
      [5, -4] := by decide
  refine ⟨?_, h2, ?_⟩
  · intro f hf
    rcases List.mem_cons.mp hf with rfl | hf
    · simp
    · rcases List.mem_cons.mp hf with rfl | hf
      · simp
      · simp at hf
  · rw [h2]
    intro hcontra
    rw [List.chain'_cons] at hcontra
    exact absurd hcontra.1 (by decide)

/-! ### Claim C10: the post-join fill_null(0) touches every column -/

theorem map_getD_map_some (l : List (Option ℚ)) (h : ∀ c ∈ l, c ≠ none) :
    (l.map (fun c => c.getD 0)).map some = l := by
  induction l with
  | nil => rfl
  | cons c cs ih =>
    cases c with
    | none => exact absurd rfl (h none (by simp))
    | some v =>
      simp only [List.map_cons, Option.getD_some]
      rw [ih (fun x hx => h x (by simp [hx]))]

/-- Claim C10: `apply_step_correction`'s post-join `fill_null(0)` zeroes
null values in every column of the table, not only the join-produced
offset column: a null data cell in a file-0 row becomes `0` (concrete first
conjunct), and a row's non-step columns are guaranteed unchanged exactly
when the row contains no nulls (general second conjunct). -/
theorem apply_step_correction_fill_null :
    ((apply_step_correction (tagFiles
        [[((5 : ℤ), [none, some 7])], [((2 : ℤ), [some 1, some 2])]])).getD 0
        ⟨0, 0, []⟩).data = [0, 7] ∧
    (∀ df : List MBRow, ∀ i, i < df.length →
      ((apply_step_correction df).getD i ⟨0, 0, []⟩).data =
        ((df.getD i ⟨0, 0, []⟩).data).map (fun c => c.getD 0) ∧
      ((∀ c ∈ (df.getD i ⟨0, 0, []⟩).data, c ≠ none) →
        (((apply_step_correction df).getD i ⟨0, 0, []⟩).data).map some =
          (df.getD i ⟨0, 0, []⟩).data)) := by
  constructor
  · decide
  · intro df i hi
    have hdata : ((apply_step_correction df).getD i ⟨0, 0, []⟩).data =
        ((df.getD i ⟨0, 0, []⟩).data).map (fun c => c.getD 0) := by
      rw [apply_step_correction, List.getD_eq_getElem _ _ (by
          rw [List.length_map]; exact hi), List.getElem_map,
        ← List.getD_eq_getElem df ⟨0, 0, []⟩ hi]
    refine ⟨hdata, fun hnn => ?_⟩
    rw [hdata, map_getD_map_some _ hnn]

theorem apply_step_correction_fill_null_witness :
    (((apply_step_correction [(⟨0, 5, [some 3]⟩ : MBRow)]).getD 0
        ⟨0, 0, []⟩).data =
      (([(⟨0, 5, [some 3]⟩ : MBRow)].getD 0 ⟨0, 0, []⟩).data).map
        (fun c => c.getD 0)) ∧
    ((((apply_step_correction [(⟨0, 5, [some 3]⟩ : MBRow)]).getD 0
        ⟨0, 0, []⟩).data).map some =
      ([(⟨0, 5, [some 3]⟩ : MBRow)].getD 0 ⟨0, 0, []⟩).data) :=
  ⟨(apply_step_correction_fill_null.2 [(⟨0, 5, [some 3]⟩ : MBRow)] 0
      (by decide)).1,
    (apply_step_correction_fill_null.2 [(⟨0, 5, [some 3]⟩ : MBRow)] 0
      (by decide)).2 (by decide)⟩

/-! ### BaseCycler.sort_files and BaseCycler.sort_key
(src/pyprobe/cyclers/basecycler.py)

Strings are modelled as `List Char` (Python `str` semantics are per
character here).  `os.path.commonprefix` is the longest common character
prefix of all names; Python `str.replace(old, "")` removes every
non-overlapping occurrence of `old`, scanning left to right; `str.find`
returns the first index of the needle (0 for the empty needle);
`re.search(r"\d+")` takes the first maximal run of decimal digits;
`sorted(key=...)` is a stable sort. -/

/-- Longest common character prefix of two names. -/
def commonPrefix2 : List Char → List Char → List Char
  | a :: as, b :: bs => if a = b then a :: commonPrefix2 as bs else []
  | _, _ => []

/-- Embedding of `os.path.commonprefix`: fold of the pairwise common
prefix (Python computes it from the lexicographic min and max, which
yields the same longest common prefix). -/
def commonPrefixAll : List (List Char) → List Char
  | [] => []
  | f :: fs => fs.foldl commonPrefix2 f

/-- Python `str.replace(old, "")` scan with explicit fuel; the caller
passes `fuel = s.length`, which always suffices because each step consumes
at least one character of `s` (the pattern is nonempty there). -/
def replaceAllFuel (p : List Char) : ℕ → List Char → List Char
  | 0, s => s
  | _, [] => []
  | fuel + 1, c :: rest =>
    if p.isPrefixOf (c :: rest) then
      replaceAllFuel p fuel ((c :: rest).drop p.length)
    else c :: replaceAllFuel p fuel rest

/-- Python `s.replace(p, "")`: removes every non-overlapping occurrence of
`p`, left to right; with an empty pattern Python returns `s` unchanged
(for an empty replacement). -/
def replaceAll (p s : List Char) : List Char :=
  if p.isEmpty then s else replaceAllFuel p s.length s

/-- Python `s.find(p)`: index of the first occurrence of `p` in `s`, `none`
for -1; the empty needle is found at index 0. -/
def findSub (p : List Char) : List Char → Option ℕ
  | [] => if p.isPrefixOf [] then some 0 else none
  | c :: rest =>
    if p.isPrefixOf (c :: rest) then some 0
    else (findSub p rest).map (fun i => i + 1)

/-- Python `s[:suffix_index]` truncation applied when the suffix is found. -/
def truncAtSuf (suf s : List Char) : List Char :=
  match findSub suf s with
  | some i => s.take i
  | none => s

/-- Numeric value of a digit run, as `int()` parses it. -/
def parseDigits (l : List Char) : ℕ :=
  l.foldl (fun a c => 10 * a + (c.toNat - 48)) 0

/-- Python `re.search(r"\d+")` + `int(...)`: value of the first maximal
run of decimal digits, 0 when the name has no digit. -/
def firstNum : List Char → ℕ
  | [] => 0
  | c :: rest =>
    if c.isDigit then parseDigits ((c :: rest).takeWhile Char.isDigit)
    else firstNum rest

/-- Embedding of `BaseCycler.sort_key`: replace every occurrence of the
common prefix, truncate at the first occurrence of the common suffix, and
parse the first run of digits (0 when there is none). -/
def sort_key (cp suf : List Char) (filepath : List Char) : ℕ :=
  firstNum (truncAtSuf suf (replaceAll cp filepath))

/-- Stable insertion of `x` after all elements with key at most `key x`. -/
def insertSorted {α : Type} (key : α → ℕ) (x : α) : List α → List α
  | [] => [x]
  | y :: ys =>
    if key y ≤ key x then y :: insertSorted key x ys else x :: y :: ys

/-- Stable sort by an integer key, as Python `sorted(key=...)`. -/
def sortStable {α : Type} (key : α → ℕ) (l : List α) : List α :=
  l.foldl (fun acc x => insertSorted key x acc) []

/-- Embedding of `BaseCycler.sort_files`: compute the common prefix of the
file list, then sort by `sort_key` (stable). -/
def sort_files (suf : List Char) (file_list : List (List Char)) :
    List (List Char) :=
  sortStable (sort_key (commonPrefixAll file_list) suf) file_list

/-- Specification-side index of claim C4: strip the longest common literal
prefix once (only at the front), truncate at the first occurrence of the
common suffix, and parse the first digit run. -/
def stripOnceSpec (cp s : List Char) : List Char :=
  if cp.isPrefixOf s then s.drop cp.length else s

/-- Specification-side sort index of claim C4. -/
def specSortIndex (cp suf : List Char) (s : List Char) : ℕ :=
  firstNum (truncAtSuf suf (stripOnceSpec cp s))

theorem mem_insertSorted {α : Type} (key : α → ℕ) (x y : α) (l : List α) :
    y ∈ insertSorted key x l ↔ y = x ∨ y ∈ l := by
  induction l with
  | nil => simp [insertSorted]
  | cons z zs ih =>
    rw [insertSorted]
    by_cases h : key z ≤ key x
    · rw [if_pos h]
      simp only [List.mem_cons, ih]
      tauto
    · rw [if_neg h]
      simp only [List.mem_cons]

theorem perm_insertSorted {α : Type} (key : α → ℕ) (x : α) (l : List α) :
    (insertSorted key x l).Perm (x :: l) := by
  induction l with
  | nil => exact List.Perm.refl _
  | cons z zs ih =>
    rw [insertSorted]
    by_cases h : key z ≤ key x
    · rw [if_pos h]
      exact (ih.cons z).trans (List.Perm.swap x z zs)
    · rw [if_neg h]

theorem pairwise_insertSorted {α : Type} (key : α → ℕ) (x : α) (l : List α)
    (hl : l.Pairwise (fun a b => key a ≤ key b)) :
    (insertSorted key x l).Pairwise (fun a b => key a ≤ key b) := by
  induction l with
  | nil => simp [insertSorted]
  | cons z zs ih =>
    rw [List.pairwise_cons] at hl
    obtain ⟨hz, hzs⟩ := hl
    rw [insertSorted]
    by_cases h : key z ≤ key x
    · rw [if_pos h, List.pairwise_cons]
      refine ⟨?_, ih hzs⟩
      intro w hw
      rcases (mem_insertSorted key x w zs).mp hw with rfl | hw
      · exact h
      · exact hz w hw
    · rw [if_neg h, List.pairwise_cons]
      have hxz : key x ≤ key z := by omega
      refine ⟨?_, List.pairwise_cons.mpr ⟨hz, hzs⟩⟩
      intro w hw
      rcases List.mem_cons.mp hw with rfl | hw
      · exact hxz
      · exact le_trans hxz (hz w hw)

theorem foldl_insertSorted_perm {α : Type} (key : α → ℕ) (l : List α) :
    ∀ acc : List α,
      (l.foldl (fun acc x => insertSorted key x acc) acc).Perm (acc ++ l) := by
  induction l with
  | nil => intro acc; simp
  | cons x xs ih =>
    intro acc
    rw [List.foldl_cons]
    refine (ih (insertSorted key x acc)).trans ?_
    have h1 : (insertSorted key x acc ++ xs).Perm ((x :: acc) ++ xs) :=
      (perm_insertSorted key x acc).append_right xs
    exact h1.trans (List.perm_middle.symm)

theorem foldl_insertSorted_pairwise {α : Type} (key : α → ℕ) (l : List α) :
    ∀ acc : List α, acc.Pairwise (fun a b => key a ≤ key b) →
      (l.foldl (fun acc x => insertSorted key x acc) acc).Pairwise
        (fun a b => key a ≤ key b) := by
  induction l with
  | nil => intro acc h; exact h
  | cons x xs ih =>
    intro acc h
    rw [List.foldl_cons]
    exact ih (insertSorted key x acc) (pairwise_insertSorted key x acc h)

theorem filter_insertSorted {α : Type} (key : α → ℕ) (x : α) (K : ℕ)
    (l : List α) (hl : l.Pairwise (fun a b => key a ≤ key b)) :
    (insertSorted key x l).filter (fun y => key y == K) =
      if key x == K then l.filter (fun y => key y == K) ++ [x]
      else l.filter (fun y => key y == K) := by
  induction l with
  | nil =>
    rw [insertSorted]
    cases hxK : (key x == K) <;> simp [List.filter_cons, hxK]
  | cons y ys ih =>
    rw [List.pairwise_cons] at hl
    obtain ⟨hy, hys⟩ := hl
    rw [insertSorted]
    by_cases h : key y ≤ key x
    · rw [if_pos h]
      simp only [List.filter_cons]
      rw [ih hys]
      cases hxK : (key x == K) <;> cases hyK : (key y == K) <;>
        simp [hxK, hyK]
    · rw [if_neg h]
      simp only [List.filter_cons]
      cases hxK : (key x == K)
      · simp
      · have hxeq : key x = K := beq_iff_eq.mp hxK
        have hyK : (key y == K) = false := by
          rw [beq_eq_false_iff_ne]
          omega
        have hfil : ys.filter (fun z => key z == K) = [] := by
          rw [List.filter_eq_nil_iff]
          intro z hz
          have := hy z hz
          simp only [beq_iff_eq]
          omega
        simp [hyK, hfil]

theorem filter_foldl_insertSorted {α : Type} (key : α → ℕ) (K : ℕ)
    (l : List α) :
    ∀ acc : List α, acc.Pairwise (fun a b => key a ≤ key b) →
      (l.foldl (fun acc x => insertSorted key x acc) acc).filter
          (fun y => key y == K) =
        acc.filter (fun y => key y == K) ++
          l.filter (fun y => key y == K) := by
  induction l with
  | nil => intro acc _; simp
  | cons x xs ih =>
    intro acc hacc
    rw [List.foldl_cons,
      ih (insertSorted key x acc) (pairwise_insertSorted key x acc hacc),
      filter_insertSorted key x K acc hacc, List.filter_cons]
    cases hxK : (key x == K) <;> simp [hxK]

/-- Claim C4 (amended): `sort_files` returns a permutation of its input
sorted ascending by the integer index obtained by removing every
occurrence of the longest common literal prefix (Python `str.replace`
removes all occurrences, not only the leading one), truncating at the
first occurrence of the configured common suffix and parsing the first
digit run (0 when there is none); ties keep the input (filesystem listing)
order, the sort being stable — for every index value `K`, the subsequence
of output files with index `K` equals, in order, the subsequence of input
files with index `K`; the claim's example sorts as stated. -/
theorem sort_files_correct :
    (∀ (suf : List Char) (files : List (List Char)),
      (sort_files suf files).Perm files ∧
      (sort_files suf files).Pairwise (fun a b =>
        sort_key (commonPrefixAll files) suf a ≤
          sort_key (commonPrefixAll files) suf b) ∧
      (∀ K : ℕ, (sort_files suf files).filter
          (fun f => sort_key (commonPrefixAll files) suf f == K) =
        files.filter
          (fun f => sort_key (commonPrefixAll files) suf f == K))) ∧
    sort_files ".csv".toList
      ["f_2.csv".toList, "f.csv".toList, "f_1.csv".toList] =
      ["f.csv".toList, "f_1.csv".toList, "f_2.csv".toList] := by
  constructor
  · intro suf files
    refine ⟨?_, ?_, ?_⟩
    · have := foldl_insertSorted_perm
        (sort_key (commonPrefixAll files) suf) files []
      simpa [sort_files, sortStable] using this
    · exact foldl_insertSorted_pairwise
        (sort_key (commonPrefixAll files) suf) files [] (by simp)
    · intro K
      have := filter_foldl_insertSorted
        (sort_key (commonPrefixAll files) suf) K files [] (by simp)
      simpa [sort_files, sortStable] using this
  · decide

/-- Claim C4 counterexample: with files `f1_2x.csv` and `f1_f1_2.csv`
(common prefix `f1_`), the code's `str.replace` removes both occurrences
of the prefix in the second name, giving it code index 2 (a tie, kept in
input order), while the claimed strip-the-prefix index gives it 1; the
returned order is therefore not ascending in the claimed index. -/
theorem sort_files_not_spec_sorted :
    sort_files ".csv".toList ["f1_2x.csv".toList, "f1_f1_2.csv".toList] =
      ["f1_2x.csv".toList, "f1_f1_2.csv".toList] ∧
    sort_key (commonPrefixAll ["f1_2x.csv".toList, "f1_f1_2.csv".toList])
      ".csv".toList "f1_2x.csv".toList = 2 ∧
    sort_key (commonPrefixAll ["f1_2x.csv".toList, "f1_f1_2.csv".toList])
      ".csv".toList "f1_f1_2.csv".toList = 2 ∧
    specSortIndex
      (commonPrefixAll ["f1_2x.csv".toList, "f1_f1_2.csv".toList])
      ".csv".toList "f1_f1_2.csv".toList = 1 ∧
    specSortIndex
      (commonPrefixAll ["f1_2x.csv".toList, "f1_f1_2.csv".toList])
      ".csv".toList "f1_2x.csv".toList = 2 ∧
    ¬ (sort_files ".csv".toList
        ["f1_2x.csv".toList, "f1_f1_2.csv".toList]).Pairwise (fun a b =>
      specSortIndex
        (commonPrefixAll ["f1_2x.csv".toList, "f1_f1_2.csv".toList])
        ".csv".toList a ≤
      specSortIndex
        (commonPrefixAll ["f1_2x.csv".toList, "f1_f1_2.csv".toList])
        ".csv".toList b) := by
  have h1 : sort_files ".csv".toList
      ["f1_2x.csv".toList, "f1_f1_2.csv".toList] =
      ["f1_2x.csv".toList, "f1_f1_2.csv".toList] := by decide
  refine ⟨h1, by decide, by decide, by decide, by decide, ?_⟩
  rw [h1]
  intro hp
  rw [List.pairwise_cons] at hp
  have := hp.1 ("f1_f1_2.csv".toList) (by simp)
  exact absurd this (by decide)

/-! ### Claim C5: the end-to-end four-row scenario

The scenario's reader is the Neware one; `pyprobe/cyclers/neware.py` is not
under src/, so its `Time [s]` derivation is modelled from the spec, while
Step and Capacity come from the embedded `BaseCycler` expressions above. -/

/-- Modelled from the spec: the Neware reader synthesizes `Time [s]` as the
elapsed time of each row's absolute Date since the first row (Dates are
modelled as integer seconds; the scenario's Dates ascend by 1 s). -/
def neware_time (dates : List ℤ) : List ℤ :=
  dates.map (fun d => d - dates.getD 0 0)

/-- Embedding of `BaseCycler.step`: `pl.col(step).cast(pl.Int64)`, the
identity on integer step values — rows are not reordered and the step
column is taken as-is. -/
def step_col (steps : List ℤ) : List ℤ := steps

/-- The (Time, Step, Capacity) outputs of the pipeline for a table with the
scenario's columns: charge/discharge counters and no signed capacity
column, so `capacity_from_ch_dch` supplies Capacity. -/
def pipeline_scenario (dates steps : List ℤ) (ch dis : List ℚ) :
    List ℤ × List ℤ × List ℚ :=
  (neware_time dates, step_col steps, capacity_from_ch_dch ch dis)

/-- Claim C5 counterexample: on the four-row scenario table the pipeline
output is not Time `[0,1,2,3]`, Step `[1,2,3,4]`, Capacity `[20,40,30,20]`
as claimed — the steps are taken as-is (`[3,4,1,2]`) and the clip-and-offset
capacity over the rows in their given order is `[20,10,10,30]`. -/
theorem pipeline_scenario_not_as_claimed :
    ¬ (pipeline_scenario [0, 1, 2, 3] [3, 4, 1, 2] [0, 0, 0, 20]
        [10, 20, 0, 0] =
      ([0, 1, 2, 3], [1, 2, 3, 4], [20, 40, 30, 20])) := by
  norm_num [pipeline_scenario, neware_time, step_col, capacity_from_ch_dch,
    diffCol, diffAux, clipFill, cumSum, cumSumAux, listMax, List.getD,
    List.zipWith_cons_cons]

/-- Claim C5 (amended): the four-row scenario table with Step Index
`[3,4,1,2]`, Dates ascending by 1 second, charge counter `[0,0,0,20]` and
discharge counter `[10,20,0,0]` yields Time `[0,1,2,3]`, Step `[3,4,1,2]`
(taken as-is, no reordering) and Capacity `[20,10,10,30]` per the
clip-and-offset algorithm applied in the given row order. -/
theorem pipeline_scenario_correct :
    pipeline_scenario [0, 1, 2, 3] [3, 4, 1, 2] [0, 0, 0, 20]
        [10, 20, 0, 0] =
      ([0, 1, 2, 3], [3, 4, 1, 2], [20, 10, 10, 30]) := by
  norm_num [pipeline_scenario, neware_time, step_col, capacity_from_ch_dch,
    diffCol, diffAux, clipFill, cumSum, cumSumAux, listMax, List.getD,
    List.zipWith_cons_cons]

/-! ### Biologic.read_file (src/pyprobe/cyclers/biologic.py)

The file is a list of text lines, each a `List Char` (as in the
`sort_files` model).  Timestamps and durations are integer microseconds,
polars' default time unit for `Datetime`/`Duration`: casting a numeric
column to `pl.Duration` reinterprets the number as a count of
microseconds.  `datetime.strptime` and polars' string-to-Float64 cast are
Python stdlib/polars primitives, abstracted as parser parameters. -/

/-- Python `str.strip()`. -/
def trimC (s : List Char) : List Char :=
  ((s.dropWhile Char.isWhitespace).reverse.dropWhile Char.isWhitespace).reverse

/-- Python `str.split(sep)` scan with explicit fuel; the caller passes
`fuel = s.length`, which always suffices because each step consumes at
least the (nonempty) separator. -/
def splitFuel (sep : List Char) : ℕ → List Char → List (List Char)
  | 0, s => [s]
  | fuel + 1, s =>
    match findSub sep s with
    | none => [s]
    | some i => s.take i :: splitFuel sep fuel (s.drop (i + sep.length))

/-- Python `str.split(sep)` for a nonempty separator: split at every
occurrence. -/
def splitOnC (sep s : List Char) : List (List Char) :=
  if sep.isEmpty then [s] else splitFuel sep s.length s

/-- Frame returned by the Biologic reader: column names, raw data rows and
the synthesized `Date` column (microseconds since epoch; a row whose
`time/s` cell is missing or unparsable gets a null Date). -/
structure BioFrame where
  cols : List (List Char)
  rows : List (List (List Char))
  dates : List (Option ℤ)
deriving DecidableEq

/-- Truncation toward zero, as polars casts `Float64` to the integer
backing of a `Duration`. -/
def truncQ (q : ℚ) : ℤ := if 0 ≤ q then q.floor else -((-q).floor)

/-- Python `int(...)` on an already-stripped digit string. -/
def parseNatDigits (s : List Char) : Option ℕ :=
  if s ≠ [] ∧ s.all Char.isDigit then some (parseDigits s) else none

/-- Embedding of `Biologic.read_file`: read the second line, split at `:`
and parse the declared header-line count `n` (unpacking `_, value`
requires exactly two parts); re-scan the first `n` lines for the one
containing `Acquisition started on` and parse the start timestamp after
`" : "`; then (as `scan_csv(skip_rows=n-1)` does) take line `n-1` as the
tab-separated column header row and every following line as a data row;
and synthesize `Date = start + cast(Duration)(cast(Float64)(time/s))`,
the duration cast counting polars' default microseconds. -/
def read_file (parseDT : List Char → Option ℤ)
    (parseFloat : List Char → Option ℚ) (lines : List (List Char)) :
    Option BioFrame :=
  match splitOnC ":".toList (trimC (lines.getD 1 [])) with
  | [_, value] =>
    match parseNatDigits (trimC value) with
    | none => none
    | some n =>
      match (lines.take n).find?
          (fun l => (findSub "Acquisition started on".toList l).isSome) with
      | none => none
      | some startLine =>
        match splitOnC " : ".toList startLine with
        | [_, v2] =>
          match parseDT (trimC v2) with
          | none => none
          | some start =>
            match (splitOnC "\t".toList (lines.getD (n - 1) [])).indexOf?
                "time/s".toList with
            | none => none
            | some ti =>
              some ⟨(splitOnC "\t".toList (lines.getD (n - 1) []))
                  ++ ["Date".toList],
                (lines.drop n).map (fun l => splitOnC "\t".toList l),
                ((lines.drop n).map (fun l => splitOnC "\t".toList l)).map
                  (fun r => (r[ti]?.bind parseFloat).map
                    (fun t => start + truncQ t))⟩
        | _ => none
  | _ => none

/-- Claim C8: on a well-formed Biologic export the reader does learn the
header length from the count in the second line and skips exactly the
header (the returned rows are the lines after the `n`-th, the `n-1`-th
being the column row) — but the synthesized Date column equals the start
timestamp plus the `time/s` value counted in polars' default microseconds,
not in seconds as the claim states: a row with `time/s = 1.0` gets
`Date = start + 1 µs` instead of `start + 1 s = start + 1000000 µs`. -/
theorem read_file_microsecond_bug :
    read_file
      (fun s => if s = "01/01/1970 00:00:00.000".toList then some 0 else none)
      (fun s => if s = "1.0".toList then some 1
        else if s = "2.0".toList then some 2 else none)
      ["BT-Lab ASCII FILE".toList, "Nb header lines : 4".toList,
       "Acquisition started on : 01/01/1970 00:00:00.000".toList,
       "time/s\tEcell/V".toList, "1.0\t3.7".toList, "2.0\t3.8".toList] =
      some ⟨["time/s".toList, "Ecell/V".toList, "Date".toList],
        [["1.0".toList, "3.7".toList], ["2.0".toList, "3.8".toList]],
        [some 1, some 2]⟩ ∧
    ([some (1 : ℤ), some 2] : List (Option ℤ)) ≠
      [some 1000000, some 2000000] := by
  constructor
  · decide
  · decide
